import Mathlib

/-!
Verification of the FOLIO platform-lsp release-automation scripts.

This file gives a shallow embedding, in Lean 4, of the version-resolution
and update-decision logic of the repository:

* `parse_semver`, `is_newer`, `filter_versions`, `decide_update`,
  `update_applications` from
  `.github/actions/update-applications/update-applications.py`
  (byte-identical copies of the first four functions appear in
  `.github/actions/update-eureka-components/update-eureka-components.py`);
* `with_retries` from the same two scripts;
* the JSON version-extraction logic of `fetch_app_versions`
  (`update-applications.py`);
* `update_components` from `update-eureka-components.py`;
* `convert_ui_module_name`, `compare_versions` (with its inner
  `normalize_version`) and the dependency-merge core of
  `update_package_json` from
  `.github/actions/update-package-json/update-package-json.py`;
* `get_patch_versions` and `get_latest_version` from `platformcheck.py`.

Python strings are modelled as `String` / `List Char` (ASCII fragment:
`str.isdigit` and `int` are modelled for ASCII digits; the scripts only
ever meet ASCII version strings), Python `int(s)` as a partial function
`pyInt : List Char → Option Int` (`none` models `ValueError`), Python
dictionaries as association lists, and the network as explicit oracle
parameters.  Machine integers do not occur: Python integers are unbounded,
matching `Int` / `Nat` exactly.
-/

namespace PlatformLsp

/-- Python `s.split(sep)` for a one-character separator, on the character
list of the string.  `split` always returns at least one (possibly empty)
segment: `"".split(".") == [""]`, `"a.".split(".") == ["a", ""]`. -/
def splitOnDot : List Char → List (List Char)
  | [] => [[]]
  | c :: cs =>
    if c = '.' then [] :: splitOnDot cs
    else
      match splitOnDot cs with
      | [] => [[c]]
      | seg :: rest => (c :: seg) :: rest

/-- The whitespace characters stripped by Python `int(str)`:
space, tab, newline, carriage return, vertical tab, form feed. -/
def isPyWs (c : Char) : Bool :=
  c = ' ' || c = Char.ofNat 9 || c = Char.ofNat 10 || c = Char.ofNat 13 ||
  c = Char.ofNat 11 || c = Char.ofNat 12

/-- Digit run of a Python integer literal after the optional sign:
`digit (digit | _ digit)*`.  A misplaced underscore is a `ValueError`
(`none`). -/
def pyDigitsGo (acc : Nat) : List Char → Option Nat
  | [] => some acc
  | c :: cs =>
    if c.isDigit then pyDigitsGo (acc * 10 + (c.toNat - 48)) cs
    else if c = '_' then
      match cs with
      | [] => none
      | d :: cs' => if d.isDigit then pyDigitsGo (acc * 10 + (d.toNat - 48)) cs' else none
    else none

/-- The digits (with optional internal underscores) of a Python integer
literal; empty input or a leading underscore is a `ValueError`. -/
def pyDigits : List Char → Option Nat
  | [] => none
  | c :: cs => if c.isDigit then pyDigitsGo (c.toNat - 48) cs else none

/-- Sign-and-digits parsing of Python `int(s)`, after whitespace
stripping: one optional sign, then a digit run. -/
def pyIntCore : List Char → Option Int
  | [] => none
  | c :: rest =>
    if c = '-' then (pyDigits rest).map (fun n => -(Int.ofNat n))
    else if c = '+' then (pyDigits rest).map (fun n => Int.ofNat n)
    else (pyDigits (c :: rest)).map (fun n => Int.ofNat n)

/-- Python `int(s)` on the character list of `s`: strips surrounding
whitespace, accepts one optional sign, then a digit run; `none` models
`ValueError`.  (Unicode digits are outside the modelled ASCII fragment.) -/
def pyInt (l : List Char) : Option Int :=
  pyIntCore (((l.dropWhile isPyWs).reverse.dropWhile isPyWs).reverse)

/-- The `while len(nums) < 3: nums.append(0)` padding plus the final
`tuple(nums)` of `parse_semver`: `nums` has one to three elements there
(split yields at least one segment, `[:3]` at most three). -/
def padTriple : List Int → Int × Int × Int
  | [a, b, c] => (a, b, c)
  | [a, b] => (a, b, 0)
  | [a] => (a, 0, 0)
  | _ => (0, 0, 0)

/-- `parse_semver` (update-applications.py lines 58-72, identical in
update-eureka-components.py lines 79-93): `(version or "0")` is split on
`.`; of the first three segments each is parsed with `int`, a
`ValueError` becoming `0`; the list is padded with `0` to length three. -/
def parse_semver (version : String) : Int × Int × Int :=
  let v := if version = "" then "0" else version
  padTriple (((splitOnDot v.data).take 3).map (fun p => (pyInt p).getD 0))

/-- Python lexicographic `<` on 3-tuples of integers. -/
def semLt (a b : Int × Int × Int) : Bool :=
  a.1 < b.1 || (a.1 = b.1 && (a.2.1 < b.2.1 || (a.2.1 = b.2.1 && a.2.2 < b.2.2)))

/-- Python lexicographic `≤` on 3-tuples of integers. -/
def semLe (a b : Int × Int × Int) : Bool :=
  semLt a b || a = b

/-- `is_newer` (update-applications.py lines 75-77): candidate strictly
newer than current under tuple comparison of the parsed triples. -/
def is_newer (current candidate : String) : Bool :=
  semLt (parse_semver current) (parse_semver candidate)

/-- `filter_versions` (update-applications.py lines 170-190, identical in
update-eureka-components.py lines 208-228).  `not versions or not
base_version` is the Python falsiness test on a list and a string.  An
unrecognised scope string appends every version (no branch of the
`if`/`elif` chain fires). -/
def filter_versions (versions : List String) (base_version : String)
    (filter_scope : String) : List String :=
  if versions = [] ∨ base_version = "" then []
  else
    let base := parse_semver base_version
    versions.filter fun v =>
      let sem := parse_semver v
      if filter_scope = "major" then true
      else if filter_scope = "minor" then sem.1 = base.1
      else if filter_scope = "patch" then sem.1 = base.1 && sem.2.1 = base.2.1
      else true

/-- Stable insertion: `x` goes after every earlier element `y` with
`le y x`.  Folded left over the input this is Python's stable sort with
respect to the total preorder `le`. -/
def insertKeyed (le : String → String → Bool) (x : String) :
    List String → List String
  | [] => [x]
  | y :: ys => if le y x then y :: insertKeyed le x ys else x :: y :: ys

/-- Python `sorted(xs, key=parse_semver, reverse=r)`: stable sort,
ascending on the parsed triples when `r = false`, descending when
`r = true` (equal keys keep their original relative order in both
cases). -/
def pySortedSemver (reverse : Bool) (xs : List String) : List String :=
  xs.foldl
    (fun acc x =>
      insertKeyed
        (fun y z =>
          if reverse then semLe (parse_semver z) (parse_semver y)
          else semLe (parse_semver y) (parse_semver z))
        x acc)
    []

/-- `decide_update` (update-applications.py lines 193-204, identical in
update-eureka-components.py lines 233-244): sort the candidates by parsed
triple (descending iff `sort_order == "desc"`), take the first element
under `desc` and the last under any other order, and return it only if it
is newer than the current version.  The inner `none` branch is
unreachable: the sorted list of a non-empty list is non-empty, so the
Python indexing `[0]` / `[-1]` never faults. -/
def decide_update (current_version : String) (candidate_versions : List String)
    (sort_order : String) : Option String :=
  if candidate_versions = [] then none
  else
    let sorted_versions := pySortedSemver (sort_order = "desc") candidate_versions
    let newest? := if sort_order = "desc" then sorted_versions.head? else sorted_versions.getLast?
    newest?.bind fun newest =>
      if is_newer current_version newest then some newest else none

/-- One `{"name": ..., "version": ...}` record of the manifest.  The
scripts validate that both keys are present before the update loops run
(`process_applications_json` lines 297-320, `main` of the eureka script
lines 331-335), so the `.get` defaults of the loops never fire. -/
structure AppRec where
  name : String
  version : String
  deriving DecidableEq, Repr

/-- Outcome of one wrapped registry fetch, as seen by the update loops:
either the list of version strings, or any raised exception (network
failure, non-200 status, retry exhaustion, ...), which the loops catch
wholesale with `except Exception`. -/
inductive FetchOutcome where
  | ok (versions : List String)
  | exc
  deriving DecidableEq

/-- The body of the `for app in applications` loop of
`update_applications` (update-applications.py lines 223-253) for a single
record, the fetch modelled by the oracle `fetch`.  A raised fetch is
caught and the record kept; an empty fetch, an empty filtered list, a
`None` decision and an empty-string decision (`if not new_version`) all
keep the record; otherwise the `version` field is overwritten. -/
def update_app_step (fetch : String → FetchOutcome) (filter_scope sort_order : String)
    (app : AppRec) : AppRec :=
  match fetch app.name with
  | .exc => app
  | .ok all_versions =>
    if all_versions = [] then app
    else
      let filtered := filter_versions all_versions app.version filter_scope
      if filtered = [] then app
      else
        match decide_update app.version filtered sort_order with
        | none => app
        | some new_version =>
          if new_version = "" then app else { app with version := new_version }

/-- `update_applications` (update-applications.py lines 209-257): mutate
each record in place; the records are independent, so the in-place loop
is a map of the single-record body.  (`fetch_app_versions` is
`lru_cache`d but deterministic per name within a run, hence a pure
oracle.) -/
def update_applications (fetch : String → FetchOutcome)
    (applications : List AppRec) (filter_scope sort_order : String) : List AppRec :=
  applications.map (update_app_step fetch filter_scope sort_order)

/-- The body of the `for comp in components` loop of `update_components`
(update-eureka-components.py lines 261-288) for a single record: fetch
release tags (an exception anywhere in the `try` keeps the record),
filter, decide, and adopt the decided version only if the Docker-image
existence check succeeds for exactly that version.  Returns the resulting
record and whether `updated_count` was incremented.
`docker_image_exists` (lines 189-203) catches every exception of its own
request and returns `False`, so it is modelled as a boolean oracle. -/
def update_component_step (fetchTags : String → FetchOutcome)
    (imageExists : String → String → Bool) (filter_scope sort_order : String)
    (comp : AppRec) : AppRec × Bool :=
  match fetchTags comp.name with
  | .exc => (comp, false)
  | .ok all_tags =>
    let filtered := filter_versions all_tags comp.version filter_scope
    match decide_update comp.version filtered sort_order with
    | none => (comp, false)
    | some new_version =>
      if new_version = "" then (comp, false)
      else if imageExists comp.name new_version then
        ({ comp with version := new_version }, true)
      else (comp, false)

/-- `update_components` (update-eureka-components.py lines 247-292):
record list after the loop, paired with the final `updated_count`. -/
def update_components (fetchTags : String → FetchOutcome)
    (imageExists : String → String → Bool) (components : List AppRec)
    (filter_scope sort_order : String) : List AppRec × Nat :=
  components.foldl
    (fun acc comp =>
      let r := update_component_step fetchTags imageExists filter_scope sort_order comp
      (acc.1 ++ [r.1], acc.2 + if r.2 then 1 else 0))
    ([], 0)

/-! ## The retrying fetcher (`with_retries`) -/

/-- `MAX_RETRIES` — `3` in both scripts (update-applications.py line 38
reads the environment with default `"3"`; update-eureka-components.py
line 57 is the constant `3`). -/
def MAX_RETRIES : Nat := 3

/-- What one attempt of the wrapped call does, as the `except` clause of
`with_retries` distinguishes it: a returned value, a raised
`requests.RequestException` (carrying the status code of `exc.response`
when there is a response, and a numeric `Retry-After` header when
present), or any other exception, which `except requests.RequestException`
does not catch. -/
inductive CallResult (α : Type) where
  | ok (v : α)
  | reqExc (status : Option Nat) (retryAfter : Option Nat)
  | otherExc
  deriving DecidableEq

/-- What the `with_retries` wrapper does in the end. -/
inductive RetryOutcome (α : Type) where
  | returned (v : α)
  | raisedReq (status : Option Nat)
  | raisedOther
  | raisedNone
  deriving DecidableEq

/-- Trace of one run of the wrapper: its outcome, the number of attempts
of the wrapped call made, and the number of `time.sleep` calls. -/
structure RetryTrace (α : Type) where
  outcome : RetryOutcome α
  attempts : Nat
  sleeps : Nat
  deriving DecidableEq

/-- The `while retries <= MAX_RETRIES` loop of `with_retries`
(update-applications.py lines 82-111, identical but for the backoff
constants in update-eureka-components.py lines 114-143).  `fuel` is the
number of loop iterations left (`MAX_RETRIES + 1 - retries`), `idx` the
current value of `retries` (also the index of the next attempt), `slept`
the sleeps so far and `last` the status of `last_error`.  On a
`RequestException` with status 429 the loop always sleeps (Retry-After or
the backoff default); on any other `RequestException` it sleeps only when
`retries < MAX_RETRIES`; any other exception propagates at once.  When
the loop ends, `raise last_error` (Python `raise None` if no iteration
ran — unreachable from `with_retries_run`). -/
def with_retries_go (call : Nat → CallResult α) :
    Nat → Nat → Nat → Option (Option Nat) → RetryTrace α
  | 0, idx, slept, last =>
    match last with
    | none => ⟨.raisedNone, idx, slept⟩
    | some st => ⟨.raisedReq st, idx, slept⟩
  | fuel + 1, idx, slept, _ =>
    match call idx with
    | .ok v => ⟨.returned v, idx + 1, slept⟩
    | .otherExc => ⟨.raisedOther, idx + 1, slept⟩
    | .reqExc status _ =>
      if status = some 429 then
        with_retries_go call fuel (idx + 1) (slept + 1) (some status)
      else
        if idx < MAX_RETRIES then
          with_retries_go call fuel (idx + 1) (slept + 1) (some status)
        else
          with_retries_go call fuel (idx + 1) slept (some status)

/-- A full run of the `with_retries` wrapper over the attempt oracle
`call` (attempt `n` behaves as `call n`). -/
def with_retries_run (call : Nat → CallResult α) : RetryTrace α :=
  with_retries_go call (MAX_RETRIES + 1) 0 0 none

/-! ## The registry payload and the extraction logic of `fetch_app_versions` -/

/-- A parsed JSON payload as `response.json()` hands it to the extraction
code.  Numbers are modelled as integers (the payloads carry versions and
counts; float formatting is irrelevant to every claim). -/
inductive Json where
  | null
  | bool (b : Bool)
  | num (n : Int)
  | str (s : String)
  | arr (items : List Json)
  | obj (fields : List (String × Json))

/-- Python dictionary lookup `d.get(key)` on the field list of an object
(JSON objects have unique keys; on a duplicated key the first wins, as in
`json.loads`... the scripts never build such payloads). -/
def jsonGet : List (String × Json) → String → Option Json
  | [], _ => none
  | (k, v) :: fs, key => if k = key then some v else jsonGet fs key

/-- An ASCII apostrophe, the quote Python `repr` puts around strings. -/
def pyQuote : String := String.singleton (Char.ofNat 39)

mutual

/-- Python `repr` of a parsed-JSON value, as `str` applies it inside
containers (string-escape refinements of `repr` are dropped: the
version strings met here contain no quotes or control characters). -/
def pyRepr : Json → String
  | .null => "None"
  | .bool true => "True"
  | .bool false => "False"
  | .num n => toString n
  | .str s => pyQuote ++ s ++ pyQuote
  | .arr items => "[" ++ String.intercalate ", " (pyReprList items) ++ "]"
  | .obj fields => "\x7b" ++ String.intercalate ", " (pyReprFields fields) ++ "\x7d"

/-- `repr` of each element of a list. -/
def pyReprList : List Json → List String
  | [] => []
  | j :: js => pyRepr j :: pyReprList js

/-- `repr` of each `key: value` entry of an object. -/
def pyReprFields : List (String × Json) → List String
  | [] => []
  | (k, v) :: fs => (pyQuote ++ k ++ pyQuote ++ ": " ++ pyRepr v) :: pyReprFields fs

end

/-- Python `str` of a parsed-JSON value: a string is returned as itself,
anything else as its `repr`. -/
def pyStr : Json → String
  | .str s => s
  | j => pyRepr j

/-- One `for item in ...` extraction loop of `fetch_app_versions`:
append `str(item["version"])` for every `item` that is a dict with a
`"version"` key. -/
def versionsFromItems (items : List Json) : List String :=
  items.filterMap fun item =>
    match item with
    | .obj f => (jsonGet f "version").map pyStr
    | _ => none

/-- The extraction logic of `fetch_app_versions`
(update-applications.py lines 139-165): primary path
`payload.applicationDescriptors[].version`; if that yields nothing, the
fallbacks — a bare list of version-carrying dicts, then
`payload.applications[].version`, then a top-level `"version"` key (the
`elif` chain: a present but non-list `applications` field still falls
through to the `"version"` test). -/
def extract_versions (payload : Json) : List String :=
  let versions :=
    match payload with
    | .obj fields =>
      match jsonGet fields "applicationDescriptors" with
      | some (.arr descriptors) => versionsFromItems descriptors
      | _ => []
    | _ => []
  if versions ≠ [] then versions
  else
    match payload with
    | .arr items => versionsFromItems items
    | .obj fields =>
      match jsonGet fields "applications" with
      | some (.arr apps) => versionsFromItems apps
      | _ =>
        match jsonGet fields "version" with
        | some v => [pyStr v]
        | none => []
    | _ => []

/-- `true` iff some item of the list is a dict with a `"version"` key —
i.e. the list makes one of the list-shaped extraction rules productive. -/
def hasVersionItem (items : List Json) : Bool :=
  items.any fun item =>
    match item with
    | .obj f => (jsonGet f "version").isSome
    | _ => false

/-- The payload shapes from which `fetch_app_versions` can extract at
least one version string: a dict with an `applicationDescriptors` list
holding a version-carrying dict, a bare list holding one, a dict with an
`applications` list holding one, or a dict with a top-level `"version"`
key. -/
def matchesAnyShape (payload : Json) : Bool :=
  match payload with
  | .arr items => hasVersionItem items
  | .obj fields =>
    (match jsonGet fields "applicationDescriptors" with
     | some (.arr descriptors) => hasVersionItem descriptors
     | _ => false) ||
    (match jsonGet fields "applications" with
     | some (.arr apps) => hasVersionItem apps
     | _ => false) ||
    (jsonGet fields "version").isSome
  | _ => false

/-! ## update-package-json: name translation, version comparison, merge -/

/-- `convert_ui_module_name` (update-package-json.py lines 36-49):
`module_name.startswith("folio_")` rewrites the `folio_` prefix (the
first six characters) to `@folio/`; anything else is unchanged. -/
def convert_ui_module_name (module_name : String) : String :=
  match module_name.data with
  | 'f' :: 'o' :: 'l' :: 'i' :: 'o' :: '_' :: rest => "@folio/" ++ String.mk rest
  | _ => module_name

/-- Python `version.lstrip(chars)` for the character set `v^~`. -/
def lstripVCT (l : List Char) : List Char :=
  l.dropWhile fun c => c = 'v' || c = '^' || c = '~'

/-- Python `part.isdigit()` on the ASCII fragment: non-empty and all
decimal digits. -/
def pyIsDigit (l : List Char) : Bool :=
  !l.isEmpty && l.all Char.isDigit

/-- The value of a string of decimal digits. -/
def natOfDigitList (l : List Char) : Nat :=
  l.foldl (fun a c => a * 10 + (c.toNat - 48)) 0

/-- The per-segment body of `normalize_version` inside `compare_versions`
(update-package-json.py lines 71-83): the leading digit run of the
segment, or `0` when there is none.  (The `except ValueError` there is
dead: `int` of a non-empty digit string never raises.) -/
def leadingDigitsVal (part : List Char) : Nat :=
  let ds := part.takeWhile Char.isDigit
  if ds = [] then 0 else natOfDigitList ds

/-- `normalize_version` (update-package-json.py lines 65-83): strip
leading `v`/`^`/`~`, split on `.`, keep the leading digit run of each
segment. -/
def normalize_version (version : String) : List Nat :=
  (splitOnDot (lstripVCT version.data)).map leadingDigitsVal

/-- The `for i in range(max_len)` comparison loop of `compare_versions`
on the already-padded, equal-length part lists. -/
def cmpParts : List Nat → List Nat → Int
  | x :: xs, y :: ys => if x < y then -1 else if y < x then 1 else cmpParts xs ys
  | _, _ => 0

/-- `compare_versions` (update-package-json.py lines 52-100): normalize
both versions, pad the shorter part list with zeros, compare
lexicographically over ALL segments; `-1` / `0` / `1`. -/
def compare_versions (version1 version2 : String) : Int :=
  let v1_parts := normalize_version version1
  let v2_parts := normalize_version version2
  let max_len := max v1_parts.length v2_parts.length
  cmpParts (v1_parts ++ List.replicate (max_len - v1_parts.length) 0)
    (v2_parts ++ List.replicate (max_len - v2_parts.length) 0)

/-- The version triple of the package-json Version Model: the first three
normalized segments, missing segments read as `0`. -/
def normTriple (version : String) : Nat × Nat × Nat :=
  let p := normalize_version version
  (p.getD 0 0, p.getD 1 0, p.getD 2 0)

/-- Lexicographic `≤` on `Nat` triples. -/
def natTripleLe (a b : Nat × Nat × Nat) : Bool :=
  a.1 < b.1 || (a.1 = b.1 && (a.2.1 < b.2.1 || (a.2.1 = b.2.1 && a.2.2 ≤ b.2.2)))

/-- First-match lookup in an association list — Python `key in d` /
`d[key]` on a dict (keys are unique in a dict; on the list model the
first entry wins). -/
def assocFind : List (String × String) → String → Option String
  | [], _ => none
  | (k, v) :: fs, key => if k = key then some v else assocFind fs key

/-- Python `d[key] = v` for a key already present: overwrite in place,
keeping the entry's position. -/
def assocSet : List (String × String) → String → String → List (String × String)
  | [], _, _ => []
  | (pk, pv) :: d, key, v =>
    if pk = key then (pk, v) :: assocSet d key v else (pk, pv) :: assocSet d key v

/-- Python `d[key] = v` on a dict that may or may not hold `key`:
overwrite if present, else append. -/
def dictSet (d : List (String × String)) (key v : String) : List (String × String) :=
  if (assocFind d key).isSome then assocSet d key v else d ++ [(key, v)]

/-- The three artifacts of the dependency merge: the mutated
`dependencies` map, `updated_ui_report` entries `(name, old, new)`, and
the `not_found_ui_report` dict. -/
structure MergeResult where
  dependencies : List (String × String)
  updated_ui_report : List (String × String × String)
  not_found_ui_report : List (String × String)
  deriving DecidableEq

/-- The body of the `for module in ui_modules` loop of
`update_package_json` (update-package-json.py lines 133-177) for one
(already shape-validated) module `(name, version)`: translate the name;
if the translated name is pinned, overwrite only when
`compare_versions(version, old) > 0` (equal → silent skip, lower →
downgrade-avoided skip); if it is not pinned, record it under
`not_found_ui_report` and leave the dependencies untouched.  (Modules
failing the dict / `name` / `version` shape checks of lines 134-140 are
skipped before reaching this body and touch none of the three
artifacts.) -/
def update_package_json_step (r : MergeResult) (module : String × String) : MergeResult :=
  let package_name := convert_ui_module_name module.1
  let version := module.2
  match assocFind r.dependencies package_name with
  | some old_version =>
    if compare_versions version old_version > 0 then
      { r with
        dependencies := assocSet r.dependencies package_name version,
        updated_ui_report := r.updated_ui_report ++ [(module.1, old_version, version)] }
    else r
  | none =>
    { r with not_found_ui_report := dictSet r.not_found_ui_report module.1 version }

/-- The dependency-merge core of `update_package_json`
(update-package-json.py lines 103-193): fold the per-module body over the
UI-module list, starting from the manifest's dependency map and empty
reports. -/
def update_package_json_deps (deps : List (String × String))
    (ui_modules : List (String × String)) : MergeResult :=
  ui_modules.foldl update_package_json_step ⟨deps, [], []⟩

/-! ## platformcheck.py: `parse_version`, `sort_versions`,
`get_patch_versions`, `get_latest_version` -/

/-- A segment of `platformcheck.parse_version`: an integer for a digit
segment, a lowercased string otherwise.  Mirrors the mixed-type list
Python builds. -/
inductive PyVal where
  | vint (n : Nat)
  | vstr (s : String)
  deriving DecidableEq

/-- `parse_version` (platformcheck.py lines 99-108): replace `-` with
`.`, split on `.`, digit segments become integers, the rest lowercased
strings. -/
def pc_parse_version (version : String) : List PyVal :=
  (splitOnDot (version.data.map fun c => if c = '-' then '.' else c)).map fun part =>
    if pyIsDigit part then .vint (natOfDigitList part)
    else .vstr (String.mk (part.map Char.toLower))

/-- Python `==` between list elements: `int == str` is `False`, never a
`TypeError`. -/
def pyValEqb : PyVal → PyVal → Bool
  | .vint a, .vint b => a = b
  | .vstr a, .vstr b => a = b
  | _, _ => false

/-- Python `<` between list elements: raises `TypeError` (`.error`)
between an `int` and a `str`. -/
def pyValLtE : PyVal → PyVal → Except Unit Bool
  | .vint a, .vint b => .ok (decide (a < b))
  | .vstr a, .vstr b => .ok (decide (a < b))
  | _, _ => .error ()

/-- Python `<` on lists of parsed segments: skip `==` pairs, apply `<`
to the first differing pair (which may raise), a strict prefix is
smaller. -/
def pyListLtE : List PyVal → List PyVal → Except Unit Bool
  | [], [] => .ok false
  | [], _ :: _ => .ok true
  | _ :: _, [] => .ok false
  | x :: xs, y :: ys => if pyValEqb x y then pyListLtE xs ys else pyValLtE x y

/-- `sort_versions` (platformcheck.py lines 111-118): descending stable
sort by `parse_version`; if that raises (`TypeError` on a mixed-type
comparison) fall back to a plain descending string sort.  CPython's sort
performs an implementation-defined subset of the pairwise comparisons;
this model takes the fallback iff SOME pair of keys is incomparable
(the claims never exercise a list where the distinction matters). -/
def sort_versions (versions : List String) : List String :=
  if versions = [] then []
  else if versions.all fun a =>
      versions.all fun b => (pyListLtE (pc_parse_version a) (pc_parse_version b)).isOk then
    versions.foldl
      (fun acc x =>
        insertKeyed
          (fun y z =>
            !(((pyListLtE (pc_parse_version y) (pc_parse_version z)).toOption).getD false))
          x acc)
      []
  else
    versions.foldl
      (fun acc x => insertKeyed (fun y z => decide ¬(y < z)) x acc) []

/-- `get_patch_versions` (platformcheck.py lines 121-145): empty inputs
or a base with fewer than two dot segments give `[]`; otherwise keep the
versions with at least two segments whose (digit-read, else `0`) major
and minor equal the base's.  No line of the `try` body can raise, so the
`except` arm is dead. -/
def get_patch_versions (versions : List String) (base_version : String) : List String :=
  if versions = [] ∨ base_version = "" then []
  else
    let base_parts := splitOnDot base_version.data
    if base_parts.length < 2 then []
    else
      let base_major := if pyIsDigit (base_parts.getD 0 []) then natOfDigitList (base_parts.getD 0 []) else 0
      let base_minor := if pyIsDigit (base_parts.getD 1 []) then natOfDigitList (base_parts.getD 1 []) else 0
      versions.filter fun version =>
        let parts := splitOnDot version.data
        if parts.length ≥ 2 then
          let major := if pyIsDigit (parts.getD 0 []) then natOfDigitList (parts.getD 0 []) else 0
          let minor := if pyIsDigit (parts.getD 1 []) then natOfDigitList (parts.getD 1 []) else 0
          major = base_major && minor = base_minor
        else false

/-- `get_latest_version` (platformcheck.py lines 148-170): no available
versions or no patch candidates → `(current, False)`; otherwise take the
head of the descending sort and adopt it only when it differs from the
current version and `parse_version(latest) > parse_version(current)`
(a `TypeError` there falls through to `(current, False)`).  The `none`
branch of the head is unreachable: the sort of a non-empty list is
non-empty. -/
def get_latest_version (current_version : String) (available_versions : List String) :
    String × Bool :=
  if available_versions = [] then (current_version, false)
  else
    let patch_versions := get_patch_versions available_versions current_version
    if patch_versions = [] then (current_version, false)
    else
      match (sort_versions patch_versions).head? with
      | none => (current_version, false)
      | some latest =>
        if latest ≠ current_version then
          match pyListLtE (pc_parse_version current_version) (pc_parse_version latest) with
          | .ok true => (latest, true)
          | _ => (current_version, false)
        else (current_version, false)

/-! ## Helper lemmas -/

/-- `splitOnDot` never returns the empty list of segments. -/
theorem splitOnDot_ne_nil (l : List Char) : splitOnDot l ≠ [] := by
  cases l with
  | nil => simp [splitOnDot]
  | cons c cs =>
    simp only [splitOnDot]
    split
    · simp
    · split
      · simp
      · simp

/-- Every character of a segment of `splitOnDot l` is a character of `l`. -/
theorem mem_of_mem_splitOnDot :
    ∀ {l part : List Char}, part ∈ splitOnDot l → ∀ {c : Char}, c ∈ part → c ∈ l := by
  intro l
  induction l with
  | nil =>
    intro part hp c hc
    simp [splitOnDot] at hp
    subst hp
    simp at hc
  | cons a as ih =>
    intro part hp c hc
    simp only [splitOnDot] at hp
    by_cases ha : a = '.'
    · rw [if_pos ha] at hp
      rcases List.mem_cons.mp hp with h1 | h2
      · subst h1; simp at hc
      · exact List.mem_cons_of_mem a (ih h2 hc)
    · rw [if_neg ha] at hp
      rcases hsd : splitOnDot as with _ | ⟨seg, rest⟩
      · exact absurd hsd (splitOnDot_ne_nil as)
      · rw [hsd] at hp
        rcases List.mem_cons.mp hp with h1 | h2
        · subst h1
          rcases List.mem_cons.mp hc with rfl | hcs
          · simp
          · have hseg : seg ∈ splitOnDot as := by rw [hsd]; simp
            exact List.mem_cons_of_mem a (ih hseg hcs)
        · have hpart : part ∈ splitOnDot as := by rw [hsd]; simp [h2]
          exact List.mem_cons_of_mem a (ih hpart hc)

/-- If the split is the single empty segment, the input was empty. -/
theorem eq_nil_of_splitOnDot_eq (l : List Char) (h : splitOnDot l = [[]]) : l = [] := by
  cases l with
  | nil => rfl
  | cons c cs =>
    simp only [splitOnDot] at h
    by_cases hc : c = '.'
    · rw [if_pos hc] at h
      exact absurd (List.tail_eq_of_cons_eq h) (splitOnDot_ne_nil cs)
    · rw [if_neg hc] at h
      rcases hsd : splitOnDot cs with _ | ⟨seg, rest⟩
      · exact absurd hsd (splitOnDot_ne_nil cs)
      · rw [hsd] at h
        exact absurd (List.head_eq_of_cons_eq h) (by simp)

/-- If the first three segments are the single empty segment, the whole
split was. -/
theorem splitOnDot_eq_of_take_eq (l : List Char)
    (h : (splitOnDot l).take 3 = [[]]) : splitOnDot l = [[]] := by
  rcases hsd : splitOnDot l with _ | ⟨x, rest⟩
  · exact absurd hsd (splitOnDot_ne_nil l)
  · rw [hsd] at h
    simp only [List.take_succ_cons] at h
    have hx := List.head_eq_of_cons_eq h
    have hr := List.tail_eq_of_cons_eq h
    rw [List.take_eq_nil_iff] at hr
    rcases hr with hr | hr
    · exact absurd hr (by simp)
    · rw [hx, hr]

/-- `pyInt` of a character list without a minus sign is non-negative. -/
theorem pyInt_nonneg (l : List Char) (h : '-' ∉ l) (n : Int)
    (he : pyInt l = some n) : 0 ≤ n := by
  unfold pyInt at he
  have hsub : ∀ c : Char, c ∈ ((l.dropWhile isPyWs).reverse.dropWhile isPyWs).reverse → c ∈ l := by
    intro c hc
    rw [List.mem_reverse] at hc
    have h1 := (List.dropWhile_sublist isPyWs).subset hc
    rw [List.mem_reverse] at h1
    exact (List.dropWhile_sublist isPyWs).subset h1
  rcases ht : ((l.dropWhile isPyWs).reverse.dropWhile isPyWs).reverse with _ | ⟨c, rest⟩
  · rw [ht] at he; exact absurd he (by simp [pyIntCore])
  · rw [ht] at he hsub
    simp only [pyIntCore] at he
    by_cases hc : c = '-'
    · exact absurd (hsub c (by simp)) (by rw [hc]; exact h)
    · rw [if_neg hc] at he
      by_cases hp : c = '+'
      · rw [if_pos hp] at he
        rcases Option.map_eq_some'.mp he with ⟨m, _, rfl⟩
        exact Int.ofNat_nonneg m
      · rw [if_neg hp] at he
        rcases Option.map_eq_some'.mp he with ⟨m, _, rfl⟩
        exact Int.ofNat_nonneg m

/-- All three components of the padded triple of a list of non-negative
numbers are non-negative. -/
theorem padTriple_nonneg (nums : List Int) (h : ∀ x ∈ nums, 0 ≤ x) :
    0 ≤ (padTriple nums).1 ∧ 0 ≤ (padTriple nums).2.1 ∧ 0 ≤ (padTriple nums).2.2 := by
  rcases nums with _ | ⟨a, _ | ⟨b, _ | ⟨c, _ | ⟨d, rest⟩⟩⟩⟩
  · simp [padTriple]
  · refine ⟨h a (by simp), by simp [padTriple], by simp [padTriple]⟩
  · exact ⟨h a (by simp), h b (by simp), by simp [padTriple]⟩
  · exact ⟨h a (by simp), h b (by simp), h c (by simp)⟩
  · simp [padTriple]

/-- A version returned by `decide_update` passed the `is_newer` guard. -/
theorem decide_update_is_newer (c : String) (cands : List String) (o v : String)
    (h : decide_update c cands o = some v) : is_newer c v = true := by
  by_cases hc : cands = []
  · simp [decide_update, hc] at h
  · simp only [decide_update, if_neg hc, Option.bind_eq_some] at h
    obtain ⟨newest, _, hf⟩ := h
    by_cases hn : is_newer c newest = true
    · rw [if_pos hn] at hf
      injection hf with hf'
      subst hf'
      exact hn
    · rw [if_neg hn] at hf
      exact absurd hf (by simp)

/-- The single-record body of `update_applications` either keeps the
version string or replaces it by one with a strictly greater parsed
triple. -/
theorem update_app_step_version (fetch : String → FetchOutcome) (scope order : String)
    (app : AppRec) :
    (update_app_step fetch scope order app).version = app.version ∨
      semLt (parse_semver app.version)
        (parse_semver (update_app_step fetch scope order app).version) = true := by
  cases hf : fetch app.name with
  | exc => left; simp [update_app_step, hf]
  | ok all_versions =>
    simp only [update_app_step, hf]
    by_cases h1 : all_versions = []
    · rw [if_pos h1]; left; rfl
    · rw [if_neg h1]
      by_cases h2 : filter_versions all_versions app.version scope = []
      · rw [if_pos h2]; left; rfl
      · rw [if_neg h2]
        rcases hd : decide_update app.version
            (filter_versions all_versions app.version scope) order with _ | nv
        · left; rfl
        · by_cases h3 : nv = ""
          · left
            show (if nv = "" then app else { app with version := nv }).version = app.version
            rw [if_pos h3]
          · right
            show semLt (parse_semver app.version)
              (parse_semver (if nv = "" then app else { app with version := nv }).version) = true
            rw [if_neg h3]
            have hnew := decide_update_is_newer _ _ _ _ hd
            unfold is_newer at hnew
            exact hnew

/-- `getD` over a list of zeros is zero. -/
theorem getD_replicate_zero : ∀ (m i : Nat), (List.replicate m (0 : Nat)).getD i 0 = 0 := by
  intro m
  induction m with
  | zero => intro i; simp [List.getD]
  | succ m ih =>
    intro i
    cases i with
    | zero => simp [List.replicate]
    | succ j =>
      simp only [List.replicate, List.getD_cons_succ]
      exact ih j

/-- Zero-padding on the right does not change any `getD ... 0`. -/
theorem getD_append_replicate (p : List Nat) (m : Nat) :
    ∀ i, (p ++ List.replicate m 0).getD i 0 = p.getD i 0 := by
  induction p with
  | nil =>
    intro i
    simp only [List.nil_append, List.getD_nil]
    exact getD_replicate_zero m i
  | cons a p ih =>
    intro i
    cases i with
    | zero => simp
    | succ j => simpa using ih j

/-- A positive `cmpParts` verdict exhibits a first index where the left
list exceeds the right, all earlier indices agreeing. -/
theorem cmpParts_pos :
    ∀ xs ys : List Nat, 0 < cmpParts xs ys →
      ∃ k, (∀ i, i < k → xs.getD i 0 = ys.getD i 0) ∧ ys.getD k 0 < xs.getD k 0 := by
  intro xs
  induction xs with
  | nil =>
    intro ys h
    cases ys <;> simp [cmpParts] at h
  | cons x xs ih =>
    intro ys h
    cases ys with
    | nil => simp [cmpParts] at h
    | cons y ys =>
      by_cases hxy : x < y
      · simp [cmpParts, hxy] at h
      · by_cases hyx : y < x
        · exact ⟨0, by omega, by simp only [List.getD_cons_zero]; exact hyx⟩
        · have heq : x = y := by omega
          rw [cmpParts, if_neg hxy, if_neg hyx] at h
          obtain ⟨k, hk, hlt⟩ := ih ys h
          refine ⟨k + 1, ?_, by simpa using hlt⟩
          intro i hi
          cases i with
          | zero => simp only [List.getD_cons_zero]; exact heq
          | succ j => simp only [List.getD_cons_succ]; exact hk j (by omega)

/-- `natTripleLe` is reflexive. -/
theorem natTripleLe_refl (a : Nat × Nat × Nat) : natTripleLe a a = true := by
  simp [natTripleLe]

/-- `natTripleLe` is transitive. -/
theorem natTripleLe_trans (a b c : Nat × Nat × Nat)
    (h1 : natTripleLe a b = true) (h2 : natTripleLe b c = true) :
    natTripleLe a c = true := by
  obtain ⟨a1, a2, a3⟩ := a
  obtain ⟨b1, b2, b3⟩ := b
  obtain ⟨c1, c2, c3⟩ := c
  simp only [natTripleLe, Bool.or_eq_true, Bool.and_eq_true, decide_eq_true_eq] at h1 h2 ⊢
  omega

/-- A strictly positive `compare_versions version old` verdict implies
the normalized triple of `old` is lexicographically at most that of
`version` (a difference confined to segments beyond the third leaves the
triples equal). -/
theorem compare_pos_tripleLe (v w : String) (h : 0 < compare_versions v w) :
    natTripleLe (normTriple w) (normTriple v) = true := by
  simp only [compare_versions] at h
  obtain ⟨k, hk, hlt⟩ := cmpParts_pos _ _ h
  rw [getD_append_replicate, getD_append_replicate] at hlt
  have hkk : ∀ i, i < k →
      (normalize_version v).getD i 0 = (normalize_version w).getD i 0 := by
    intro i hi
    have hh := hk i hi
    rwa [getD_append_replicate, getD_append_replicate] at hh
  simp only [normTriple, natTripleLe, Bool.or_eq_true, Bool.and_eq_true, decide_eq_true_eq,
    ← List.getD_eq_getElem?_getD]
  rcases k with _ | _ | _ | k3
  · omega
  · have e0 := hkk 0 (by omega)
    rw [show (0 + 1 : Nat) = 1 from rfl] at hlt
    omega
  · have e0 := hkk 0 (by omega)
    have e1 := hkk 1 (by omega)
    rw [show (0 + 1 + 1 : Nat) = 2 from rfl] at hlt
    omega
  · have e0 := hkk 0 (by omega)
    have e1 := hkk 1 (by omega)
    have e2 := hkk 2 (by omega)
    omega

/-- Overwriting a present key makes lookup return the new value. -/
theorem assocFind_assocSet_self (d : List (String × String)) (k v x : String)
    (h : assocFind d k = some x) : assocFind (assocSet d k v) k = some v := by
  induction d with
  | nil => simp [assocFind] at h
  | cons p d ih =>
    obtain ⟨pk, pv⟩ := p
    by_cases hpk : pk = k
    · have h1 : assocSet ((pk, pv) :: d) k v = (pk, v) :: assocSet d k v := by
        simp only [assocSet]
        rw [if_pos hpk]
      rw [h1]
      simp only [assocFind]
      rw [if_pos hpk]
    · have h1 : assocSet ((pk, pv) :: d) k v = (pk, pv) :: assocSet d k v := by
        simp only [assocSet]
        rw [if_neg hpk]
      have h2 : assocFind ((pk, pv) :: d) k = assocFind d k := by
        simp only [assocFind]
        rw [if_neg hpk]
      rw [h2] at h
      rw [h1]
      simp only [assocFind]
      rw [if_neg hpk]
      exact ih h

/-- Overwriting one key leaves lookups of other keys unchanged. -/
theorem assocFind_assocSet_ne (d : List (String × String)) (k v key : String)
    (h : key ≠ k) : assocFind (assocSet d k v) key = assocFind d key := by
  induction d with
  | nil => rfl
  | cons p d ih =>
    obtain ⟨pk, pv⟩ := p
    by_cases hpk : pk = k
    · have hpkey : ¬pk = key := by rw [hpk]; exact fun hc => h hc.symm
      have h1 : assocSet ((pk, pv) :: d) k v = (pk, v) :: assocSet d k v := by
        simp only [assocSet]
        rw [if_pos hpk]
      rw [h1]
      simp only [assocFind]
      rw [if_neg hpkey, if_neg hpkey]
      exact ih
    · have h1 : assocSet ((pk, pv) :: d) k v = (pk, pv) :: assocSet d k v := by
        simp only [assocSet]
        rw [if_neg hpk]
      rw [h1]
      simp only [assocFind]
      by_cases hpkey : pk = key
      · rw [if_pos hpkey, if_pos hpkey]
      · rw [if_neg hpkey, if_neg hpkey]
        exact ih

/-- One step of the dependency merge never lowers the normalized triple
pinned at any key. -/
theorem update_package_json_step_mono (r : MergeResult) (m : String × String)
    (key oldv : String) (h : assocFind r.dependencies key = some oldv) :
    ∃ newv, assocFind (update_package_json_step r m).dependencies key = some newv ∧
      natTripleLe (normTriple oldv) (normTriple newv) = true := by
  rcases hfind : assocFind r.dependencies (convert_ui_module_name m.1) with _ | old_version
  · have hstep : update_package_json_step r m =
        { r with not_found_ui_report := dictSet r.not_found_ui_report m.1 m.2 } := by
      simp only [update_package_json_step, hfind]
    rw [hstep]
    exact ⟨oldv, h, natTripleLe_refl _⟩
  · have hstep : update_package_json_step r m =
        if compare_versions m.2 old_version > 0 then
          { r with
            dependencies := assocSet r.dependencies (convert_ui_module_name m.1) m.2,
            updated_ui_report := r.updated_ui_report ++ [(m.1, old_version, m.2)] }
        else r := by
      simp only [update_package_json_step, hfind]
    rw [hstep]
    by_cases hcmp : compare_versions m.2 old_version > 0
    · rw [if_pos hcmp]
      by_cases hkey : key = convert_ui_module_name m.1
      · have hov : old_version = oldv := by
          rw [hkey] at h
          rw [h] at hfind
          injection hfind with he
          exact he.symm
        refine ⟨m.2, ?_, ?_⟩
        · rw [hkey]
          exact assocFind_assocSet_self _ _ _ _ hfind
        · rw [← hov]
          exact compare_pos_tripleLe m.2 old_version hcmp
      · refine ⟨oldv, ?_, natTripleLe_refl _⟩
        rw [assocFind_assocSet_ne _ _ _ _ hkey]
        exact h
    · rw [if_neg hcmp]
      exact ⟨oldv, h, natTripleLe_refl _⟩

/-- The fold of merge steps never lowers the normalized triple pinned at
any key. -/
theorem update_package_json_foldl_mono (mods : List (String × String)) :
    ∀ (r : MergeResult) (key oldv : String),
      assocFind r.dependencies key = some oldv →
      ∃ newv,
        assocFind (mods.foldl update_package_json_step r).dependencies key = some newv ∧
          natTripleLe (normTriple oldv) (normTriple newv) = true := by
  induction mods with
  | nil => exact fun r key oldv h => ⟨oldv, h, natTripleLe_refl _⟩
  | cons m mods ih =>
    intro r key oldv h
    obtain ⟨midv, hmid, hle1⟩ := update_package_json_step_mono r m key oldv h
    obtain ⟨newv, hnew, hle2⟩ := ih (update_package_json_step r m) key midv hmid
    exact ⟨newv, hnew, natTripleLe_trans _ _ _ hle1 hle2⟩

/-- When every attempt raises a `RequestException`, the retry loop runs
its full budget: starting at attempt `idx` with `fuel` iterations left
(`idx + fuel = MAX_RETRIES + 1`), it makes all remaining attempts, sleeps
on every iteration but possibly the last, and ends by re-raising a
`RequestException`. -/
theorem with_retries_go_allreq {α : Type} (call : Nat → CallResult α)
    (h : ∀ n, ∃ s r, call n = .reqExc s r) :
    ∀ fuel idx slept last, idx + fuel = MAX_RETRIES + 1 → 0 < fuel →
      (with_retries_go call fuel idx slept last).attempts = MAX_RETRIES + 1 ∧
        slept + (fuel - 1) ≤ (with_retries_go call fuel idx slept last).sleeps ∧
        ∃ st, (with_retries_go call fuel idx slept last).outcome = .raisedReq st := by
  intro fuel
  induction fuel with
  | zero =>
    intro idx slept last _ hpos
    simp at hpos
  | succ fuel ih =>
    intro idx slept last hsum _
    obtain ⟨s, r, hc⟩ := h idx
    simp only [with_retries_go, hc]
    by_cases h429 : s = some 429
    · rw [if_pos h429]
      cases fuel with
      | zero =>
        simp only [with_retries_go]
        exact ⟨by omega, by omega, s, rfl⟩
      | succ f =>
        have hrec := ih (idx + 1) (slept + 1) (some s) (by omega) (by omega)
        exact ⟨hrec.1, by have h2 := hrec.2.1; omega, hrec.2.2⟩
    · rw [if_neg h429]
      by_cases hidx : idx < MAX_RETRIES
      · rw [if_pos hidx]
        cases fuel with
        | zero =>
          simp only [with_retries_go]
          exact ⟨by omega, by omega, s, rfl⟩
        | succ f =>
          have hrec := ih (idx + 1) (slept + 1) (some s) (by omega) (by omega)
          exact ⟨hrec.1, by have h2 := hrec.2.1; omega, hrec.2.2⟩
      · rw [if_neg hidx]
        have hf0 : fuel = 0 := by omega
        subst hf0
        simp only [with_retries_go]
        exact ⟨by omega, by omega, s, rfl⟩

/-- A list with no version-carrying dict yields no extracted versions. -/
theorem versionsFromItems_eq_nil :
    ∀ items : List Json, hasVersionItem items = false → versionsFromItems items = [] := by
  intro items
  induction items with
  | nil => intro _; rfl
  | cons it its ih =>
    intro h
    rw [hasVersionItem, List.any_cons, Bool.or_eq_false_iff] at h
    obtain ⟨h1, h2⟩ := h
    have h2' : hasVersionItem its = false := h2
    cases it with
    | obj f =>
      have h1' : (jsonGet f "version").isSome = false := h1
      have hn : jsonGet f "version" = none := by
        cases hjg : jsonGet f "version" with
        | none => rfl
        | some v => rw [hjg] at h1'; simp at h1'
      show versionsFromItems (Json.obj f :: its) = []
      simp only [versionsFromItems, List.filterMap_cons, hn, Option.map_none']
      exact ih h2'
    | null => exact ih h2'
    | bool b => exact ih h2'
    | num n => exact ih h2'
    | str s => exact ih h2'
    | arr js => exact ih h2'

/-! ## Claim theorems -/

/-- C1, counterexample: the claim says `parse_semver` always returns
three NON-NEGATIVE integers, but Python `int` accepts a sign, so the
segment `"-1"` parses to `-1`, not to `0`:
`parse_semver("-1.2.3") == (-1, 2, 3)`. -/
theorem parse_semver_negative_counterexample :
    parse_semver "-1.2.3" = (-1, 2, 3) ∧ (parse_semver "-1.2.3").1 < 0 := by
  decide

/-- C1 (amended): `parse_semver` terminates on every string and returns a
triple of exactly three integers (the embedding is a total function into
`Int × Int × Int`); the components are moreover non-negative whenever the
input contains no `-` sign — a segment that is a negative integer literal
yields its negative value rather than `0`. -/
theorem parse_semver_total_nonneg_without_minus (s : String) (h : '-' ∉ s.data) :
    0 ≤ (parse_semver s).1 ∧ 0 ≤ (parse_semver s).2.1 ∧ 0 ≤ (parse_semver s).2.2 := by
  by_cases hs : s = ""
  · subst hs; decide
  · have hrw : parse_semver s =
        padTriple (((splitOnDot s.data).take 3).map (fun p => (pyInt p).getD 0)) := by
      simp [parse_semver, hs]
    rw [hrw]
    apply padTriple_nonneg
    intro x hx
    rw [List.mem_map] at hx
    obtain ⟨p, hp, rfl⟩ := hx
    have hp' : p ∈ splitOnDot s.data := List.mem_of_mem_take hp
    cases hpy : pyInt p with
    | none => simp
    | some m =>
      simp only [Option.getD_some]
      exact pyInt_nonneg p (fun hm => h (mem_of_mem_splitOnDot hp' hm)) m hpy

/-- C1, witness: the amended theorem applied to `"10.4.2"`. -/
theorem parse_semver_total_nonneg_witness :
    '-' ∉ "10.4.2".data ∧
      (0 ≤ (parse_semver "10.4.2").1 ∧ 0 ≤ (parse_semver "10.4.2").2.1 ∧
        0 ≤ (parse_semver "10.4.2").2.2) :=
  ⟨by decide, parse_semver_total_nonneg_without_minus "10.4.2" (by decide)⟩

/-- C2: under `scope=patch`, every element of the filtered list has the
major and the minor segment of its parsed triple equal to those of the
parsed base version. -/
theorem filter_versions_patch_scope_sound (versions : List String) (base v : String)
    (h : v ∈ filter_versions versions base "patch") :
    (parse_semver v).1 = (parse_semver base).1 ∧
      (parse_semver v).2.1 = (parse_semver base).2.1 := by
  unfold filter_versions at h
  split at h
  · simp at h
  · rw [List.mem_filter] at h
    have h2 := h.2
    simp only [reduceIte] at h2
    rw [if_neg (show ¬("patch" : String) = "major" by decide),
      if_neg (show ¬("patch" : String) = "minor" by decide),
      Bool.and_eq_true, decide_eq_true_eq, decide_eq_true_eq] at h2
    exact h2

/-- C2, witness: the theorem applied to the spec's §8 scenario. -/
theorem filter_versions_patch_scope_witness :
    "1.0.1" ∈ filter_versions ["1.0.1", "1.1.0", "2.0.0"] "1.0.0" "patch" ∧
      ((parse_semver "1.0.1").1 = (parse_semver "1.0.0").1 ∧
        (parse_semver "1.0.1").2.1 = (parse_semver "1.0.0").2.1) :=
  ⟨by decide,
    filter_versions_patch_scope_sound ["1.0.1", "1.1.0", "2.0.0"] "1.0.0" "1.0.1" (by decide)⟩

/-- C3: on the fully ordered candidate set `["1.2.1","1.2.5","1.2.3"]`
against current version `"1.2.0"`, both sort orders select `"1.2.5"`. -/
theorem decide_update_asc_desc_agree_example :
    decide_update "1.2.0" ["1.2.1", "1.2.5", "1.2.3"] "asc" = some "1.2.5" ∧
      decide_update "1.2.0" ["1.2.1", "1.2.5", "1.2.3"] "desc" = some "1.2.5" := by
  decide

/-- C4: the dependency merge of update-package-json.py is monotone: for
every manifest dependency map, every sequence of update candidates, and
every pinned key, the pinned version after the merge has a normalized
triple that is lexicographically at least the one pinned before — the
merge never replaces a pin with a lower version (it overwrites only when
`compare_versions(new, old) > 0`). -/
theorem update_package_json_monotone (deps : List (String × String))
    (ui_modules : List (String × String)) (key oldv : String)
    (h : assocFind deps key = some oldv) :
    ∃ newv,
      assocFind (update_package_json_deps deps ui_modules).dependencies key = some newv ∧
        natTripleLe (normTriple oldv) (normTriple newv) = true :=
  update_package_json_foldl_mono ui_modules ⟨deps, [], []⟩ key oldv h

/-- C4, witness: one pinned dependency upgraded by one candidate. -/
theorem update_package_json_monotone_witness :
    assocFind [("@folio/mod-a", "1.0.0")] "@folio/mod-a" = some "1.0.0" ∧
      ∃ newv,
        assocFind (update_package_json_deps [("@folio/mod-a", "1.0.0")]
            [("folio_mod-a", "1.0.1")]).dependencies "@folio/mod-a" = some newv ∧
          natTripleLe (normTriple "1.0.0") (normTriple newv) = true :=
  ⟨by decide,
    update_package_json_monotone [("@folio/mod-a", "1.0.0")] [("folio_mod-a", "1.0.1")]
      "@folio/mod-a" "1.0.0" (by decide)⟩

/-- C5, counterexample: a wrapped call that keeps failing with an HTTP
404 `RequestException` (a 4xx other than 429) is NOT returned
immediately: the wrapper makes all `MAX_RETRIES + 1 = 4` attempts and
sleeps 3 times before re-raising, because the `except
requests.RequestException` clause never inspects the status code except
for the 429 branch. -/
theorem with_retries_404_counterexample :
    with_retries_run (fun _ => CallResult.reqExc (α := Unit) (some 404) none) =
      ⟨.raisedReq (some 404), 4, 3⟩ ∧
      (404 : Nat) ≠ 429 ∧ 400 ≤ (404 : Nat) ∧ (404 : Nat) < 500 ∧ (4 : Nat) ≠ 1 ∧ (3 : Nat) ≠ 0 := by
  decide

/-- C5 (amended): the wrapper distinguishes only `RequestException` from
everything else.  Every `RequestException` — any status, 4xx included —
consumes the retry budget: if all attempts raise one, the wrapper makes
exactly `MAX_RETRIES + 1` attempts, sleeps at least `MAX_RETRIES` times,
and re-raises the last error.  Only an exception that is not a
`RequestException` propagates immediately, without sleeping or consuming
any retry attempt. -/
theorem with_retries_reqexc_retry_policy :
    (∀ call : Nat → CallResult Unit,
        (∀ n, ∃ s r, call n = .reqExc s r) →
        (with_retries_run call).attempts = MAX_RETRIES + 1 ∧
          MAX_RETRIES ≤ (with_retries_run call).sleeps ∧
          ∃ st, (with_retries_run call).outcome = .raisedReq st) ∧
    (∀ call : Nat → CallResult Unit,
        call 0 = .otherExc → with_retries_run call = ⟨.raisedOther, 1, 0⟩) := by
  constructor
  · intro call h
    simp only [with_retries_run]
    have hgo := with_retries_go_allreq call h (MAX_RETRIES + 1) 0 0 none (by omega) (by omega)
    exact ⟨hgo.1, by have h2 := hgo.2.1; omega, hgo.2.2⟩
  · intro call h
    simp [with_retries_run, MAX_RETRIES, with_retries_go, h]

/-- C5, witness: the amended theorem applied to a persistent-503 call and
to a call raising a non-`RequestException` on its first attempt. -/
theorem with_retries_retry_policy_witness :
    ((with_retries_run (fun _ => CallResult.reqExc (α := Unit) (some 503) none)).attempts =
        MAX_RETRIES + 1 ∧
      MAX_RETRIES ≤ (with_retries_run (fun _ => CallResult.reqExc (α := Unit) (some 503) none)).sleeps ∧
      ∃ st, (with_retries_run (fun _ => CallResult.reqExc (α := Unit) (some 503) none)).outcome =
        .raisedReq st) ∧
    with_retries_run (fun _ => CallResult.otherExc (α := Unit)) = ⟨.raisedOther, 1, 0⟩ :=
  ⟨with_retries_reqexc_retry_policy.1 (fun _ => CallResult.reqExc (some 503) none)
      (fun _ => ⟨some 503, none, rfl⟩),
    with_retries_reqexc_retry_policy.2 (fun _ => CallResult.otherExc) rfl⟩

/-- C6, counterexample: the claim extends to `compare_versions` of
update-package-json.py, but that function compares ALL dot segments:
`"1.2.3.4"` and `"1.2.3.5"` agree on their first three segments yet do
not compare as equal (`compare_versions` returns `-1`). -/
theorem compare_versions_fourth_segment_counterexample :
    (splitOnDot "1.2.3.4".data).take 3 = (splitOnDot "1.2.3.5".data).take 3 ∧
      compare_versions "1.2.3.4" "1.2.3.5" = -1 := by
  decide

/-- C6 (amended): `parse_semver` (the Version Model of
update-applications.py and update-eureka-components.py) ignores segments
beyond the third: any two strings whose first three dot-separated
segments agree have equal parsed triples, hence compare as equal under
`is_newer`; `compare_versions` of update-package-json.py, however,
compares all segments. -/
theorem parse_semver_ignores_beyond_third (s t : String)
    (h : (splitOnDot s.data).take 3 = (splitOnDot t.data).take 3) :
    parse_semver s = parse_semver t := by
  by_cases hs : s = ""
  · subst hs
    have h3 : (splitOnDot t.data).take 3 = [[]] := by
      rw [← h]; decide
    have ht : t.data = [] := eq_nil_of_splitOnDot_eq _ (splitOnDot_eq_of_take_eq _ h3)
    obtain ⟨td⟩ := t
    simp only at ht
    rw [ht]
  · by_cases ht : t = ""
    · subst ht
      have h3 : (splitOnDot s.data).take 3 = [[]] := by
        rw [h]; decide
      have hs' : s.data = [] := eq_nil_of_splitOnDot_eq _ (splitOnDot_eq_of_take_eq _ h3)
      obtain ⟨sd⟩ := s
      simp only at hs'
      rw [hs']
    · have hrs : parse_semver s =
          padTriple (((splitOnDot s.data).take 3).map (fun p => (pyInt p).getD 0)) := by
        simp [parse_semver, hs]
      have hrt : parse_semver t =
          padTriple (((splitOnDot t.data).take 3).map (fun p => (pyInt p).getD 0)) := by
        simp [parse_semver, ht]
      rw [hrs, hrt, h]

/-- C6, witness: the amended theorem applied to `"1.2.3.4.5"` and
`"1.2.3"`. -/
theorem parse_semver_ignores_beyond_third_witness :
    (splitOnDot "1.2.3.4.5".data).take 3 = (splitOnDot "1.2.3".data).take 3 ∧
      parse_semver "1.2.3.4.5" = parse_semver "1.2.3" :=
  ⟨by decide, parse_semver_ignores_beyond_third "1.2.3.4.5" "1.2.3" (by decide)⟩

/-- C10: in platformcheck.py, a current version with fewer than two
dot-separated segments can never be updated: `get_patch_versions`
requires at least a major and a minor segment in the base, so
`get_latest_version` returns `(current_version, False)` for every
non-empty list of available versions. -/
theorem get_latest_version_short_base_no_update (current : String) (versions : List String)
    (hseg : (splitOnDot current.data).length < 2) (hne : versions ≠ []) :
    get_latest_version current versions = (current, false) := by
  have hpatch : get_patch_versions versions current = [] := by
    unfold get_patch_versions
    split
    · rfl
    · simp only [if_pos hseg]
  unfold get_latest_version
  rw [if_neg hne, hpatch]
  simp

/-- C7: a successfully fetched payload whose JSON shape matches none of
the extraction rules of `fetch_app_versions` produces the empty version
list — the extraction logic is a total function into `List String` and
its final fallthrough returns `[]` rather than raising or failing. -/
theorem extract_versions_no_shape_empty (payload : Json)
    (h : matchesAnyShape payload = false) : extract_versions payload = [] := by
  cases payload with
  | null => rfl
  | bool b => rfl
  | num n => rfl
  | str s => rfl
  | arr items =>
    have h' : hasVersionItem items = false := h
    have hv := versionsFromItems_eq_nil items h'
    simp only [extract_versions]
    rw [if_neg (by simp)]
    exact hv
  | obj fields =>
    have h' : (((match jsonGet fields "applicationDescriptors" with
          | some (.arr descriptors) => hasVersionItem descriptors
          | _ => false) ||
        (match jsonGet fields "applications" with
          | some (.arr apps) => hasVersionItem apps
          | _ => false)) ||
        (jsonGet fields "version").isSome) = false := h
    rw [Bool.or_eq_false_iff, Bool.or_eq_false_iff] at h'
    obtain ⟨⟨hA, hB⟩, hC⟩ := h'
    have hprim : (match jsonGet fields "applicationDescriptors" with
        | some (.arr descriptors) => versionsFromItems descriptors
        | _ => ([] : List String)) = [] := by
      rcases hd : jsonGet fields "applicationDescriptors" with _ | j
      · rfl
      · cases j with
        | arr d =>
          rw [hd] at hA
          have hA' : hasVersionItem d = false := hA
          exact versionsFromItems_eq_nil d hA'
        | null => rfl
        | bool b => rfl
        | num n => rfl
        | str s => rfl
        | obj f2 => rfl
    simp only [extract_versions, hprim]
    rw [if_neg (by simp)]
    rcases ha : jsonGet fields "applications" with _ | j
    · rcases hv : jsonGet fields "version" with _ | v
      · rfl
      · rw [hv] at hC
        simp at hC
    · cases j with
      | arr apps =>
        rw [ha] at hB
        have hB' : hasVersionItem apps = false := hB
        exact versionsFromItems_eq_nil apps hB'
      | null =>
        rcases hv : jsonGet fields "version" with _ | v
        · rfl
        · rw [hv] at hC
          simp at hC
      | bool b =>
        rcases hv : jsonGet fields "version" with _ | v
        · rfl
        · rw [hv] at hC
          simp at hC
      | num n =>
        rcases hv : jsonGet fields "version" with _ | v
        · rfl
        · rw [hv] at hC
          simp at hC
      | str s =>
        rcases hv : jsonGet fields "version" with _ | v
        · rfl
        · rw [hv] at hC
          simp at hC
      | obj f2 =>
        rcases hv : jsonGet fields "version" with _ | v
        · rfl
        · rw [hv] at hC
          simp at hC

/-- C7, witness: a paged search response carrying no version field
anywhere the extraction looks. -/
theorem extract_versions_no_shape_witness :
    matchesAnyShape (Json.obj [("totalRecords", .num 5), ("items", .arr [.str "x"])]) = false ∧
      extract_versions (Json.obj [("totalRecords", .num 5), ("items", .arr [.str "x"])]) = [] :=
  ⟨by decide, extract_versions_no_shape_empty
    (Json.obj [("totalRecords", .num 5), ("items", .arr [.str "x"])]) (by decide)⟩

/-- C8: in the image-registry-gated path of `update_components`, when the
Docker-image existence check returns `false` for the version selected by
`decide_update`, the component record is returned exactly unchanged and
the update counter is not incremented, even though a newer in-scope tag
was found. -/
theorem update_component_image_missing_frame (fetchTags : String → FetchOutcome)
    (imageExists : String → String → Bool) (scope order : String) (comp : AppRec)
    (tags : List String) (nv : String)
    (hf : fetchTags comp.name = .ok tags)
    (hd : decide_update comp.version (filter_versions tags comp.version scope) order = some nv)
    (hnv : nv ≠ "")
    (hix : imageExists comp.name nv = false) :
    update_component_step fetchTags imageExists scope order comp = (comp, false) := by
  simp only [update_component_step, hf]
  rw [hd]
  show (if nv = "" then (comp, false)
      else if imageExists comp.name nv = true then ({ comp with version := nv }, true)
      else (comp, false)) = (comp, false)
  rw [if_neg hnv, hix]
  simp

/-- C8, witness: a component at `1.0.0`, a registry holding the newer
in-scope tag `1.0.1`, and an image registry that denies every tag. -/
theorem update_component_image_missing_witness :
    (fun _ : String => FetchOutcome.ok ["1.0.1"]) "mod-users" = .ok ["1.0.1"] ∧
      decide_update "1.0.0" (filter_versions ["1.0.1"] "1.0.0" "patch") "asc" = some "1.0.1" ∧
      update_component_step (fun _ => .ok ["1.0.1"]) (fun _ _ => false) "patch" "asc"
        ⟨"mod-users", "1.0.0"⟩ = (⟨"mod-users", "1.0.0"⟩, false) :=
  ⟨by decide, by decide,
    update_component_image_missing_frame (fun _ => .ok ["1.0.1"]) (fun _ _ => false)
      "patch" "asc" ⟨"mod-users", "1.0.0"⟩ ["1.0.1"] "1.0.1"
      (by decide) (by decide) (by decide) (by decide)⟩

/-- C9: after `update_applications`, every record's version is either its
original string unchanged, or a string whose parsed triple is strictly
greater than the original's parsed triple — the in-place mutation path
never downgrades or sidegrades, whatever the fetch outcomes. -/
theorem update_applications_never_downgrades (fetch : String → FetchOutcome)
    (apps : List AppRec) (scope order : String) (i : Nat) (hi : i < apps.length) :
    ∃ hj : i < (update_applications fetch apps scope order).length,
      ((update_applications fetch apps scope order).get ⟨i, hj⟩).version =
          (apps.get ⟨i, hi⟩).version ∨
        semLt (parse_semver (apps.get ⟨i, hi⟩).version)
          (parse_semver (((update_applications fetch apps scope order).get ⟨i, hj⟩)).version) =
          true := by
  have hlen : (update_applications fetch apps scope order).length = apps.length := by
    simp [update_applications]
  refine ⟨hlen ▸ hi, ?_⟩
  have hget : (update_applications fetch apps scope order).get ⟨i, hlen ▸ hi⟩ =
      update_app_step fetch scope order (apps.get ⟨i, hi⟩) := by
    simp [update_applications]
  rw [hget]
  exact update_app_step_version fetch scope order (apps.get ⟨i, hi⟩)

/-- C9, witness: one application record, a fetch returning a newer patch
version. -/
theorem update_applications_never_downgrades_witness :
    0 < ([⟨"app-a", "1.0.0"⟩] : List AppRec).length ∧
      ∃ hj : 0 < (update_applications (fun _ => .ok ["1.0.1"])
          [⟨"app-a", "1.0.0"⟩] "patch" "asc").length,
        ((update_applications (fun _ => .ok ["1.0.1"])
              [⟨"app-a", "1.0.0"⟩] "patch" "asc").get ⟨0, hj⟩).version =
            (([⟨"app-a", "1.0.0"⟩] : List AppRec).get ⟨0, by decide⟩).version ∨
          semLt (parse_semver (([⟨"app-a", "1.0.0"⟩] : List AppRec).get ⟨0, by decide⟩).version)
            (parse_semver (((update_applications (fun _ => .ok ["1.0.1"])
              [⟨"app-a", "1.0.0"⟩] "patch" "asc").get ⟨0, hj⟩)).version) = true :=
  ⟨by decide,
    update_applications_never_downgrades (fun _ => .ok ["1.0.1"])
      [⟨"app-a", "1.0.0"⟩] "patch" "asc" 0 (by decide)⟩

/-- C10, witness: the theorem applied to current version `"5"` and
available versions `["5.0.0", "5.0.1"]`. -/
theorem get_latest_version_short_base_witness :
    (splitOnDot "5".data).length < 2 ∧ (["5.0.0", "5.0.1"] : List String) ≠ [] ∧
      get_latest_version "5" ["5.0.0", "5.0.1"] = ("5", false) :=
  ⟨by decide, by decide,
    get_latest_version_short_base_no_update "5" ["5.0.0", "5.0.1"] (by decide) (by decide)⟩

end PlatformLsp
